import Mathlib

/-!
Verification of the rational-arithmetic / arithmetic-coding module
`febrl/mymath.py` (`_Rational`, `_trim`, `_parse_number`,
`arith_coder_train`, `arith_coder_encode`).

The repository runs this module under Python 3 (`math.gcd`,
`import builtins`, f-strings elsewhere in the package), while `_Rational`
is Python-2-vintage code: `__coerce__` is commented out, comparison and
true division exist only as the Python 2 `__cmp__` / `__div__` hooks that
Python 3 never dispatches, and the constructor's final
`self.n = n / f; self.d = d / f` are float true divisions.  The
embedding therefore models three things separately:

* exact big-integer arithmetic (`Int`, `reduce`) for the paths that
  execute exactly — training, whose integer quantities stay far below
  `2^53` (where storing an integer in a float is exact) for every
  executable text, and the continued-fraction loop of `_trim`;
* the Python 3 float storage where it bites: `roundFloat` rounds an
  integer to the value of the nearest IEEE-754 double (round half to
  even), giving the components the constructor actually stores
  (`rationalInitPy3`) and the products `__add__` actually forms
  (`addPy3`);
* Python 3 runtime errors as `none`: `/` applied to a `_Rational` (no
  `__truediv__`), arithmetic between a `_Rational` and an un-coerced
  plain `int` or `float`, zero denominators, failed assertions, missing
  dictionary keys, unparsable literals.
-/

namespace Mymath

/-- The `_Rational` record of `mymath.py`: numerator `n`, denominator `d`. -/
structure Rational where
  n : Int
  d : Int
  deriving DecidableEq, Repr

/-- Body of `_Rational.__init__` for a nonzero denominator: normalise the
sign so that the denominator is positive (`if d < 0: n *= -1; d *= -1`),
then divide both components by `f = math.gcd(abs(n), d)`.  Both divisions
are exact, so all integer division conventions agree on their values;
these exact quotients are what Python 3 actually stores whenever they lie
below `2^53` (true on every path this model is used to verify), while
`rationalInitPy3` below models the float-rounded storage in general. -/
def reduce (n d : Int) : Rational :=
  if d < 0 then
    ⟨-n / (Int.gcd (-n) (-d) : Int), -d / (Int.gcd (-n) (-d) : Int)⟩
  else
    ⟨n / (Int.gcd n d : Int), d / (Int.gcd n d : Int)⟩

/-- `_Rational.__init__` itself: `d == 0` raises `ZeroDivisionError`
(the method evaluates `n / d`), otherwise the reduced pair is stored. -/
def rationalInit (n d : Int) : Option Rational :=
  if d = 0 then none else some (reduce n d)

/-- The exact mathematical value of a `Rational`. -/
def val (r : Rational) : ℚ := (r.n : ℚ) / (r.d : ℚ)

/-- The `_Rational` class invariant: positive denominator and fully reduced
fraction (`math.gcd(abs(n), d) == 1`). -/
def Reduced (r : Rational) : Prop := 0 < r.d ∧ Int.gcd r.n r.d = 1

instance (r : Rational) : Decidable (Reduced r) := by
  unfold Reduced; infer_instance

namespace Rational

/-- `_Rational.__add__`: `_Rational(self.n*other.d + other.n*self.d, self.d*other.d)`. -/
def add (a b : Rational) : Rational := reduce (a.n * b.d + b.n * a.d) (a.d * b.d)

/-- `_Rational.__mul__`: `_Rational(self.n*other.n, self.d*other.d)`. -/
def mul (a b : Rational) : Rational := reduce (a.n * b.n) (a.d * b.d)

/-- `_Rational.__neg__`: `_Rational(-self.n, self.d)`. -/
def neg (a : Rational) : Rational := reduce (-a.n) a.d

/-- `_Rational.__sub__`: `self + (-other)`. -/
def sub (a b : Rational) : Rational := add a (neg b)

/-- `_Rational.inv`: `_Rational(self.d, self.n)`. -/
def inv (a : Rational) : Rational := reduce a.d a.n

/-- `_Rational.__div__`: `self * other.inv()`. -/
def div (a b : Rational) : Rational := mul a (inv b)

/-- `_Rational.__abs__`: `_Rational(abs(self.n), self.d)`. -/
def abs (a : Rational) : Rational := reduce |a.n| a.d

/-- `_Rational.__cmp__`: `cmp(self.n * other.d, self.d * other.n)`. -/
def cmp (a b : Rational) : Ordering := compare (a.n * b.d) (a.d * b.n)

end Rational

theorem gcd_int_pos {n' d' : Int} (hd : d' ≠ 0) : 0 < (Int.gcd n' d' : Int) := by
  have h0 : Int.gcd n' d' ≠ 0 := by
    intro h
    exact hd (Int.gcd_eq_zero_iff.mp h).2
  exact_mod_cast Nat.pos_of_ne_zero h0

theorem div_pos_of_dvd {g e : Int} (hg : 0 < g) (hdvd : g ∣ e) (h : 0 < e) :
    0 < e / g := by
  obtain ⟨k, rfl⟩ := hdvd
  rw [Int.mul_ediv_cancel_left _ (ne_of_gt hg)]
  rcases mul_pos_iff.mp h with ⟨_, hkpos⟩ | ⟨hgneg, _⟩
  · exact hkpos
  · exact absurd hg (not_lt.mpr (le_of_lt hgneg))

theorem div_gcd_pos {n' d' : Int} (h : 0 < d') :
    0 < d' / (Int.gcd n' d' : Int) :=
  div_pos_of_dvd (gcd_int_pos (ne_of_gt h)) Int.gcd_dvd_right h

theorem div_exact_val {n' d' g : Int} (hg : g ≠ 0) (ha : g ∣ n') (hb : g ∣ d') :
    ((n' / g : Int) : ℚ) / ((d' / g : Int) : ℚ) = (n' : ℚ) / (d' : ℚ) := by
  obtain ⟨a, rfl⟩ := ha
  obtain ⟨b, rfl⟩ := hb
  rw [Int.mul_ediv_cancel_left _ hg, Int.mul_ediv_cancel_left _ hg]
  have hgq : (g : ℚ) ≠ 0 := by exact_mod_cast hg
  push_cast
  rw [mul_div_mul_left _ _ hgq]

theorem reduce_d_pos {n d : Int} (hd : d ≠ 0) : 0 < (reduce n d).d := by
  unfold reduce
  by_cases hlt : d < 0
  · rw [if_pos hlt]
    exact div_gcd_pos (by omega)
  · rw [if_neg hlt]
    exact div_gcd_pos (by omega)

theorem reduce_gcd {n d : Int} (hd : d ≠ 0) :
    Int.gcd (reduce n d).n (reduce n d).d = 1 := by
  unfold reduce
  by_cases hlt : d < 0
  · rw [if_pos hlt]
    refine Int.gcd_div_gcd_div_gcd ?_
    exact Nat.pos_of_ne_zero fun h => (by omega : (-d : Int) ≠ 0) (Int.gcd_eq_zero_iff.mp h).2
  · rw [if_neg hlt]
    refine Int.gcd_div_gcd_div_gcd ?_
    exact Nat.pos_of_ne_zero fun h => hd (Int.gcd_eq_zero_iff.mp h).2

theorem reduce_reduced {n d : Int} (hd : d ≠ 0) : Reduced (reduce n d) :=
  ⟨reduce_d_pos hd, reduce_gcd hd⟩

theorem reduce_val {n d : Int} (hd : d ≠ 0) :
    val (reduce n d) = (n : ℚ) / (d : ℚ) := by
  unfold reduce val
  by_cases hlt : d < 0
  · rw [if_pos hlt]
    have hne : (-d : Int) ≠ 0 := by omega
    have := div_exact_val (g := (Int.gcd (-n) (-d) : Int))
      (ne_of_gt (gcd_int_pos hne)) Int.gcd_dvd_left Int.gcd_dvd_right
    simp only at this ⊢
    rw [this]
    push_cast
    rw [neg_div_neg_eq]
  · rw [if_neg hlt]
    have := div_exact_val (g := (Int.gcd n d : Int))
      (ne_of_gt (gcd_int_pos hd)) Int.gcd_dvd_left Int.gcd_dvd_right
    simp only at this ⊢
    exact this

/-- Bit length minus one (that is, `floor(log2)`) of a natural number,
with explicit fuel; `log2Fuel 64 a` is exact for every `a < 2^64`, which
covers every quantity this development evaluates. -/
def log2Fuel : Nat → Nat → Nat
  | 0, _ => 0
  | fuel + 1, a => if a < 2 then 0 else log2Fuel fuel (a / 2) + 1

/-- The integer value of the IEEE-754 double nearest to the integer `m`
(round half to even): exact for `|m| < 2^53`, rounded to 53 significant
bits above it (float overflow beyond `2^1024` is outside the range used
here).  This is what Python 3 stores when a true division `n / f` of
exactly divisible integers produces the integer `m`, and what the
`int(...)` at the head of the next constructor call recovers from it. -/
def roundFloat (m : Int) : Int :=
  let a := m.natAbs
  let v :=
    if a < 2 ^ 53 then a
    else
      let e := log2Fuel 64 a - 52
      let q := a / 2 ^ e
      let r := a % 2 ^ e
      let half := 2 ^ (e - 1)
      let q2 :=
        if r < half then q
        else if half < r then q + 1
        else if q % 2 = 0 then q else q + 1
      q2 * 2 ^ e
  if m < 0 then -(v : Int) else (v : Int)

/-- `_Rational.__init__` as executed by Python 3: sign normalisation and
gcd reduction as in `reduce`, but the final `self.n = n / f;
self.d = d / f` are float true divisions, so the stored components are
the doubles nearest to the exact quotients. -/
def rationalInitPy3 (n d : Int) : Option Rational :=
  if d = 0 then none
  else
    let r := reduce n d
    some ⟨roundFloat r.n, roundFloat r.d⟩

/-- `_Rational.__add__` as executed by Python 3 on float-stored
components: each float product and the float sum round to double
precision before the result reaches the constructor (which rounds again
after its gcd division). -/
def addPy3 (a b : Rational) : Option Rational :=
  rationalInitPy3 (roundFloat (roundFloat (a.n * b.d) + roundFloat (b.n * a.d)))
    (roundFloat (a.d * b.d))

/-- C4 (code bug): in Python 3 the constructor's final `self.n = n / f;
self.d = d / f` are float true divisions.  At `_Rational(3, 2^53 + 5)`
the gcd `f` is 1 and the stored pair is `(3.0, float(2^53 + 5))` — the
denominator rounds half-to-even down to `2^53 + 4` — whose gcd is 3: the
claimed "fully reduced at all times" invariant fails, and the stored
value itself differs from `3 / (2^53 + 5)`. -/
theorem constructor_stores_unreduced_floats :
    rationalInitPy3 3 (2 ^ 53 + 5) = some ⟨3, 2 ^ 53 + 4⟩ ∧
    Int.gcd 3 (2 ^ 53 + 4) = 3 ∧
    ¬Reduced (⟨3, 2 ^ 53 + 4⟩ : Rational) := by
  refine ⟨by decide, by decide, by decide⟩

/-- C7 (code bug): Python 3 float storage makes `__add__` inexact once an
intermediate product leaves the 53-bit-exact range (and `(a+b)-b == a`
compares object identity, no `__eq__` being defined, so it is `False`
for every `a`, `b`).  Concretely, adding `1/(2^27+1)` and `1/(2^27-1)`
forms the float product `(2^27+1)*(2^27-1) = 2^54 - 1`, which rounds to
`2^54`, so the sum is stored as `1/2^26` instead of the exact
`2^28/(2^54-1)`. -/
theorem addPy3_inexact :
    addPy3 ⟨1, 2 ^ 27 + 1⟩ ⟨1, 2 ^ 27 - 1⟩ = some ⟨1, 2 ^ 26⟩ ∧
    val (⟨1, 2 ^ 26⟩ : Rational) ≠
      val (⟨1, 2 ^ 27 + 1⟩ : Rational) + val (⟨1, 2 ^ 27 - 1⟩ : Rational) := by
  constructor
  · decide
  · simp only [val]
    push_cast
    norm_num

/-- `_Rational.__int__` is `return int(int(self))`: the inner `int(self)`
invokes `__int__` on the same object again before the outer conversion (the
identity on an integer result) can apply, so the recursion makes no
progress.  `fuel` bounds the call depth: a `none` result means the call has
not produced a value within that depth. -/
def intConv (fuel : Nat) (r : Rational) : Option Int :=
  match fuel with
  | 0 => none
  | fuel' + 1 =>
    match intConv fuel' r with
    | none => none
    | some k => some k

/-- C10: the integer conversion of a `_Rational` never produces a value,
whatever the call depth and whatever the rational (even an integer-valued
one): `__int__` unconditionally re-enters itself with no base case. -/
theorem intConv_never_terminates : ∀ (fuel : Nat) (r : Rational), intConv fuel r = none := by
  intro fuel r
  induction fuel with
  | zero => rfl
  | succ fuel' ih => simp [intConv, ih]

/-- Digit-string parsing used by Python `int(...)`: at least one digit,
all characters decimal digits. -/
def parseDigits (cs : List Char) : Option Nat :=
  if cs = [] then none
  else
    cs.foldl
      (fun acc c =>
        match acc with
        | none => none
        | some a => if c.isDigit then some (a * 10 + (c.toNat - 48)) else none)
      (some 0)

/-- Python `int(...)` on a decimal string: optional leading minus sign,
then digits; anything else raises `ValueError`. -/
def parseInt (cs : List Char) : Option Int :=
  match cs with
  | '-' :: rest => (parseDigits rest).map (fun m => -(m : Int))
  | _ => (parseDigits cs).map (fun m => (m : Int))

/-- `num.split(sep, 1)`: split a string at the first occurrence of a
character; `none` when the character does not occur. -/
def splitOnFirst (c : Char) : List Char → Option (List Char × List Char)
  | [] => none
  | x :: xs =>
    if x = c then some ([], xs)
    else (splitOnFirst c xs).map (fun p => (x :: p.1, p.2))

/-- `_parse_number` as executed by Python 3.  The fraction branch applies
`/` to two `_Rational`s, which define no `__truediv__` — `TypeError`.
The exponent branch builds `rational(exp)`, whose stored numerator is
the float `exp / 1`, so `__pow__` falls back to `float(self) ** exp` and
the following `mant * <float>` reads `other.n` off a float —
`AttributeError`.  The decimal branch computes `i + f` with the plain
int `i`: `int.__add__` returns `NotImplemented`, `_Rational.__radd__`
runs `self + other`, and `__add__` reads `other.d` off the int —
`AttributeError` (`__coerce__` is commented out).  So every compound
branch raises as soon as it is selected (a recursive sub-parse that
fails earlier raises the same way), and only the plain-integer leaf
`rational(int(num))` returns a value, through the float-storing
constructor. -/
def parse_number (s : String) : Option Rational :=
  match splitOnFirst '/' s.data with
  | some _ => none
  | none =>
    match splitOnFirst 'e' s.data with
    | some _ => none
    | none =>
      match splitOnFirst '.' s.data with
      | some _ => none
      | none =>
        match parseInt s.data with
        | none => none
        | some i => rationalInitPy3 i 1

/-- C6 (code bug): under Python 3 dispatch none of the three claimed
literals parses — `"3/4"` raises `TypeError` (no `__truediv__` between
`_Rational`s), `"0.75"` raises `AttributeError` (the decimal branch adds
the plain int `0` to a `_Rational` with coercion disabled), and `"3e-1"`
raises `AttributeError` (the float-valued exponent makes `__pow__` fall
back to a float, which `__mul__` then dereferences) — instead of
yielding rationals equal to `_Rational(3, 4)`, `_Rational(3, 4)` and
`_Rational(3, 10)`. -/
theorem parse_literals_crash :
    parse_number "3/4" = none ∧
    parse_number "0.75" = none ∧
    parse_number "3e-1" = none :=
  ⟨rfl, rfl, rfl⟩

/-- The state of `_trim`'s `while 1:` loop at its `break`, after the
iteration's assignments have been performed. -/
structure TrimBreak where
  n : Int
  d : Int
  before_last_n : Int
  before_last_d : Int
  last_n : Int
  last_d : Int
  current_n : Int
  current_d : Int
  deriving DecidableEq, Repr

/-- The `while 1:` loop of `_trim`.  Python's `divmod` is floor division
with a remainder carrying the divisor's sign (`Int.fdiv` / `Int.fmod`);
`divmod(n, 0)` raises `ZeroDivisionError`, modelled by `none`.  `fuel`
bounds the iteration count; the Euclidean remainder shrinks strictly in
absolute value, so `|d| + 1` fuel always suffices. -/
def trimLoop (max_d : Int) : Nat → Int → Int → Int → Int → Int → Int → Option TrimBreak
  | 0, _, _, _, _, _, _ => none
  | fuel + 1, n, d, last_n, last_d, current_n, current_d =>
    if d = 0 then none
    else
      let dv := Int.fdiv n d
      let md := Int.fmod n d
      let next_n := last_n + current_n * dv
      let next_d := last_d + current_d * dv
      if md = 0 ∨ next_d ≥ max_d then
        some ⟨d, md, last_n, last_d, current_n, current_d, next_n, next_d⟩
      else
        trimLoop max_d fuel d md current_n current_d next_n next_d

/-- `_trim(n, d, max_d)`.  A `none` models a Python runtime error:
`ZeroDivisionError` from `divmod(n, 0)`, from the integer division
computing the semiconvergent multiplier `i = (max_d - before_last_d) /
last_d`, or from a `_Rational` constructed with a zero denominator (the
post-loop `num = _Rational(n, d)` with the exhausted remainder `d == 0`).
The `max_d == 1` branch is Python 2's integer `n / d`, i.e. floor
division. -/
def _trim (n d max_d : Int) : Option (Int × Int) :=
  if d = 0 then none
  else if max_d = 1 then some (Int.fdiv n d, 1)
  else
    match trimLoop max_d (d.natAbs + 1) n d 0 1 1 0 with
    | none => none
    | some st =>
      if st.current_d = max_d then some (st.current_n, st.current_d)
      else if st.last_d = 0 then none
      else
        let i := Int.fdiv (max_d - st.before_last_d) st.last_d
        let alternative_n := st.before_last_n + i * st.last_n
        let alternative_d := st.before_last_d + i * st.last_d
        match rationalInit alternative_n alternative_d,
              rationalInit st.last_n st.last_d,
              rationalInit st.n st.d with
        | some alternative, some last, some num =>
          if ((alternative.sub num).abs).cmp ((last.sub num).abs) = Ordering.lt then
            some (alternative_n, alternative_d)
          else
            some (st.last_n, st.last_d)
        | _, _, _ => none

/-- C3 (code bug): `_trim(7, 2, 3)` raises `ZeroDivisionError` instead of
returning the best approximation `(7, 2)` (whose denominator `2 ≤ 3`
already): the loop ends with remainder `d == 0` because `7/2` has a finite
continued-fraction expansion ending below the bound, and the
semiconvergent comparison then constructs `num = _Rational(1, 0)`. -/
theorem trim_zero_division : _trim 7 2 3 = none := by rfl

/-- The reserved terminator symbol `"\x00"` (NUL). -/
def nul : Char := Char.ofNat 0

/-- `counts[c] = counts.get(c, 0) + 1` on an insertion-ordered dictionary
(Python dictionaries preserve insertion order): an existing key keeps its
position, a new key is appended. -/
def addCount (counts : List (Char × Nat)) (c : Char) : List (Char × Nat) :=
  if (counts.find? fun p => p.1 = c).isSome then
    counts.map fun p => if p.1 = c then (p.1, p.2 + 1) else p
  else counts ++ [(c, 1)]

/-- The counting loop `for c in text: counts[c] = counts.get(c, 0) + 1`. -/
def countsOf (text : List Char) : List (Char × Nat) := text.foldl addCount []

/-- The cumulative-probability loop of `arith_coder_train`: for each
`(c, count)` in insertion order, `next = rational(tot + count,
tot_letters)`, `probs[c] = (prev, next)`, then advance `prev` and `tot`.
Returns the table together with the final `tot` (checked by the trailing
`assert tot == tot_letters`). -/
def trainLoop (T : Nat) : List (Char × Nat) → Nat → Rational →
    (List (Char × (Rational × Rational)) × Nat)
  | [], tot, _ => ([], tot)
  | (c, count) :: rest, tot, prev =>
    let next := reduce ((tot : Int) + (count : Int)) (T : Int)
    let r := trainLoop T rest (tot + count) next
    ((c, (prev, next)) :: r.1, r.2)

/-- The counts dictionary after `counts["\x00"] = 1` (the terminator,
absent from a valid text, is appended last). -/
def fullCounts (text : List Char) : List (Char × Nat) :=
  countsOf text ++ [(nul, 1)]

/-- `tot_letters = sum(counts.values())`. -/
def totalCount (text : List Char) : Nat :=
  ((fullCounts text).map Prod.snd).sum

/-- `arith_coder_train(text)`: asserts that the text is free of the NUL
terminator (`assert "\x00" not in text`), counts symbols, appends the
single synthetic terminator occurrence, and builds the cumulative interval
table starting from `prev = rational(0)`; the trailing
`assert tot == tot_letters` is the final `if`.  `none` models a failed
assertion. -/
def arith_coder_train (text : List Char) :
    Option (List (Char × (Rational × Rational))) :=
  if nul ∈ text then none
  else
    let r := trainLoop (totalCount text) (fullCounts text) 0 (reduce 0 1)
    if r.2 = totalCount text then some r.1 else none

theorem trainLoop_map_fst (T : Nat) :
    ∀ (cs : List (Char × Nat)) (tot : Nat) (prev : Rational),
      (trainLoop T cs tot prev).1.map Prod.fst = cs.map Prod.fst := by
  intro cs
  induction cs with
  | nil => intro tot prev; rfl
  | cons hd tl ih =>
    intro tot prev
    obtain ⟨c, count⟩ := hd
    simp only [trainLoop, List.map_cons, List.cons.injEq]
    exact ⟨trivial, ih _ _⟩

theorem trainLoop_tot (T : Nat) :
    ∀ (cs : List (Char × Nat)) (tot : Nat) (prev : Rational),
      (trainLoop T cs tot prev).2 = tot + (cs.map Prod.snd).sum := by
  intro cs
  induction cs with
  | nil => intro tot prev; simp [trainLoop]
  | cons hd tl ih =>
    intro tot prev
    obtain ⟨c, count⟩ := hd
    simp only [trainLoop, List.map_cons, List.sum_cons]
    rw [ih]
    omega

theorem trainLoop_length (T : Nat) (cs : List (Char × Nat)) (tot : Nat) (prev : Rational) :
    (trainLoop T cs tot prev).1.length = cs.length := by
  have h := trainLoop_map_fst T cs tot prev
  have := congrArg List.length h
  simpa using this

theorem trainLoop_getLast (T : Nat) :
    ∀ (cs : List (Char × Nat)) (tot : Nat) (prev : Rational), cs ≠ [] →
      (trainLoop T cs tot prev).1.getLast?.map (fun e => e.2.2) =
        some (reduce ((tot : Int) + ((cs.map Prod.snd).sum : Int)) (T : Int)) := by
  intro cs
  induction cs with
  | nil => intro tot prev hne; exact absurd rfl hne
  | cons hd tl ih =>
    intro tot prev _
    obtain ⟨c, count⟩ := hd
    cases tl with
    | nil =>
      simp only [trainLoop, List.getLast?_singleton, Option.map_some, List.map_cons,
        List.map_nil, List.sum_cons, List.sum_nil]
      congr 2
    | cons hd2 tl2 =>
      have hstep := ih (tot + count) (reduce ((tot : Int) + (count : Int)) (T : Int))
        (by simp)
      simp only [trainLoop] at hstep ⊢
      rw [List.getLast?_cons_cons]
      rw [hstep]
      simp only [List.map_cons, List.sum_cons]
      congr 2
      all_goals push_cast
      all_goals try ring

theorem trainLoop_width (T : Nat) (hT : (T : Int) ≠ 0) :
    ∀ (cs : List (Char × Nat)) (tot : Nat) (prev : Rational),
      val prev = (tot : ℚ) / (T : ℚ) →
      ∀ i (h : i < (trainLoop T cs tot prev).1.length) (h' : i < cs.length),
        val ((trainLoop T cs tot prev).1.get ⟨i, h⟩).2.2 -
          val ((trainLoop T cs tot prev).1.get ⟨i, h⟩).2.1
          = ((cs.get ⟨i, h'⟩).2 : ℚ) / (T : ℚ) := by
  intro cs
  induction cs with
  | nil => intro tot prev hprev i h h'; simp at h'
  | cons hd tl ih =>
    intro tot prev hprev i h h'
    obtain ⟨c, count⟩ := hd
    cases i with
    | zero =>
      show val (reduce ((tot : Int) + (count : Int)) (T : Int)) - val prev = _
      have hget : (((c, count) :: tl).get ⟨0, h'⟩) = (c, count) := rfl
      rw [reduce_val hT, hprev, hget]
      push_cast
      ring
    | succ i' =>
      have hnext : val (reduce ((tot : Int) + (count : Int)) (T : Int))
          = (((tot + count : Nat) : ℚ)) / (T : ℚ) := by
        rw [reduce_val hT]
        push_cast
        ring
      have hh : i' < (trainLoop T tl (tot + count)
          (reduce ((tot : Int) + (count : Int)) (T : Int))).1.length := by
        have := trainLoop_length T tl (tot + count)
          (reduce ((tot : Int) + (count : Int)) (T : Int))
        have hlen := trainLoop_length T ((c, count) :: tl) tot prev
        simp [hlen] at h
        omega
      exact ih (tot + count) _ hnext i' hh (by simpa using h')

theorem trainLoop_sum (T : Nat) (hT : (T : Int) ≠ 0) :
    ∀ (cs : List (Char × Nat)) (tot : Nat) (prev : Rational),
      val prev = (tot : ℚ) / (T : ℚ) →
      ((trainLoop T cs tot prev).1.map (fun e => val e.2.2 - val e.2.1)).sum
        = (((cs.map Prod.snd).sum : ℚ)) / (T : ℚ) := by
  intro cs
  induction cs with
  | nil => intro tot prev hprev; simp [trainLoop]
  | cons hd tl ih =>
    intro tot prev hprev
    obtain ⟨c, count⟩ := hd
    have hnext : val (reduce ((tot : Int) + (count : Int)) (T : Int))
        = (((tot + count : Nat) : ℚ)) / (T : ℚ) := by
      rw [reduce_val hT]
      push_cast
      ring
    simp only [trainLoop, List.map_cons, List.sum_cons]
    rw [ih (tot + count) _ hnext, hnext, hprev]
    push_cast
    ring

/-- Keys of the counts dictionary remain distinct. -/
theorem addCount_keys_nodup {counts : List (Char × Nat)} {c : Char}
    (h : (counts.map Prod.fst).Nodup) : ((addCount counts c).map Prod.fst).Nodup := by
  unfold addCount
  split
  · have hmap : (counts.map fun p => if p.1 = c then (p.1, p.2 + 1) else p).map Prod.fst
        = counts.map Prod.fst := by
      rw [List.map_map]
      refine List.map_congr_left ?_
      intro p _
      by_cases hp : p.1 = c <;> simp [hp]
    rw [hmap]
    exact h
  · next hfind =>
    rw [List.map_append]
    simp only [List.map_cons, List.map_nil]
    have hnotin : c ∉ counts.map Prod.fst := by
      intro hmem
      obtain ⟨p, hp, hpc⟩ := List.mem_map.mp hmem
      have := List.find?_eq_none.mp (Option.not_isSome_iff_eq_none.mp hfind) p hp
      simp [hpc] at this
    simp [List.nodup_append, h, hnotin]

/-- One step of the counting loop: every entry's value is the number of
occurrences of its key in the processed prefix. -/
theorem addCount_counts {processed : List Char} {counts : List (Char × Nat)} {c : Char}
    (hmem : ∀ x, x ∈ counts.map Prod.fst ↔ x ∈ processed)
    (hval : ∀ p ∈ counts, p.2 = processed.count p.1) :
    (∀ x, x ∈ (addCount counts c).map Prod.fst ↔ x ∈ processed ++ [c]) ∧
    (∀ p ∈ addCount counts c, p.2 = (processed ++ [c]).count p.1) := by
  unfold addCount
  split
  · next hfind =>
    obtain ⟨q, hq, hqc⟩ := List.find?_isSome.mp hfind
    have hcq : q.1 = c := by simpa using hqc
    constructor
    · intro x
      have hmap : (counts.map fun p => if p.1 = c then (p.1, p.2 + 1) else p).map Prod.fst
          = counts.map Prod.fst := by
        rw [List.map_map]
        refine List.map_congr_left ?_
        intro p _
        by_cases hp : p.1 = c <;> simp [hp]
      rw [hmap]
      rw [hmem x]
      constructor
      · intro hx; exact List.mem_append_left _ hx
      · intro hx
        rcases List.mem_append.mp hx with hx | hx
        · exact hx
        · simp at hx
          subst hx
          rw [← hcq]
          exact (hmem q.1).mp (List.mem_map.mpr ⟨q, hq, rfl⟩)
    · intro p hp
      obtain ⟨p₀, hp₀, hpe⟩ := List.mem_map.mp hp
      by_cases hc : p₀.1 = c
      · rw [if_pos hc] at hpe
        subst hpe
        simp only [List.count_append]
        rw [hval p₀ hp₀, hc]
        simp [List.count_singleton']
      · rw [if_neg hc] at hpe
        subst hpe
        simp only [List.count_append]
        rw [hval p₀ hp₀]
        simp [List.count_singleton', hc]
  · next hfind =>
    have hnone := Option.not_isSome_iff_eq_none.mp hfind
    have hnotin : c ∉ processed := by
      intro hmem'
      obtain ⟨p, hp, hpc⟩ := List.mem_map.mp ((hmem c).mpr hmem')
      have := List.find?_eq_none.mp hnone p hp
      simp [hpc] at this
    constructor
    · intro x
      rw [List.map_append]
      simp only [List.map_cons, List.map_nil, List.mem_append]
      rw [hmem x]
    · intro p hp
      rcases List.mem_append.mp hp with hp | hp
      · rw [hval p hp]
        simp only [List.count_append]
        have hpc : p.1 ≠ c := by
          intro he
          exact hnotin ((hmem c).mp (List.mem_map.mpr ⟨p, hp, he⟩))
        simp [List.count_singleton', hpc]
      · simp at hp
        subst hp
        simp only [List.count_append]
        have : processed.count c = 0 := List.count_eq_zero.mpr hnotin
        simp [this, List.count_singleton']

/-- The counts dictionary built by the counting loop assigns to every key
its occurrence count in the text, and its keys are the distinct symbols of
the text. -/
theorem countsOf_spec (text : List Char) :
    ((countsOf text).map Prod.fst).Nodup ∧
    (∀ x, x ∈ (countsOf text).map Prod.fst ↔ x ∈ text) ∧
    (∀ p ∈ countsOf text, p.2 = text.count p.1) := by
  suffices h : ∀ (l processed : List Char) (acc : List (Char × Nat)),
      (acc.map Prod.fst).Nodup →
      (∀ x, x ∈ acc.map Prod.fst ↔ x ∈ processed) →
      (∀ p ∈ acc, p.2 = processed.count p.1) →
      ((l.foldl addCount acc).map Prod.fst).Nodup ∧
      (∀ x, x ∈ (l.foldl addCount acc).map Prod.fst ↔ x ∈ processed ++ l) ∧
      (∀ p ∈ l.foldl addCount acc, p.2 = (processed ++ l).count p.1) by
    have := h text [] [] (by simp) (by simp) (by simp)
    simpa [countsOf] using this
  intro l
  induction l with
  | nil =>
    intro processed acc h1 h2 h3
    simp only [List.foldl_nil, List.append_nil]
    exact ⟨h1, h2, h3⟩
  | cons c l' ih =>
    intro processed acc h1 h2 h3
    have hstep := @addCount_counts processed acc c h2 h3
    have hnodup := @addCount_keys_nodup acc c h1
    have := ih (processed ++ [c]) (addCount acc c) hnodup hstep.1 hstep.2
    simpa [List.append_assoc] using this

/-- C9: `arith_coder_train` fails (its `assert "\x00" not in text` fires)
exactly when the text contains the reserved NUL terminator; on any other
text it returns the table. -/
theorem train_fails_iff_nul (text : List Char) :
    arith_coder_train text = none ↔ nul ∈ text := by
  by_cases h : nul ∈ text
  · simp [arith_coder_train, h]
  · simp only [arith_coder_train, if_neg h]
    rw [trainLoop_tot]
    simp [totalCount, h]

/-- C1: for a non-empty text free of the terminator, training succeeds and
yields a table whose symbols are the counted symbols in first-encountered
order (terminator last), whose first lower bound is exactly 0, whose last
upper bound is exactly 1, whose interval widths sum to exactly 1, and in
which every entry's width is its count divided by the total count — the
counts being the occurrence counts of the text plus exactly one synthetic
terminator occurrence. -/
theorem train_partition (text : List Char) (hne : text ≠ []) (hnul : nul ∉ text) :
    ∃ probs, arith_coder_train text = some probs ∧
      probs.map Prod.fst = (fullCounts text).map Prod.fst ∧
      probs.head?.map (fun e => val e.2.1) = some 0 ∧
      probs.getLast?.map (fun e => val e.2.2) = some 1 ∧
      (probs.map (fun e => val e.2.2 - val e.2.1)).sum = 1 ∧
      (∀ i (h : i < probs.length) (h' : i < (fullCounts text).length),
        val (probs.get ⟨i, h⟩).2.2 - val (probs.get ⟨i, h⟩).2.1
          = (((fullCounts text).get ⟨i, h'⟩).2 : ℚ) / (totalCount text : ℚ)) ∧
      (∀ p ∈ countsOf text, p.2 = text.count p.1) ∧
      (fullCounts text).getLast? = some (nul, 1) := by
  have hT0 : 0 < totalCount text := by
    unfold totalCount fullCounts
    simp
  have hTZ : ((totalCount text : Nat) : Int) ≠ 0 := by
    exact_mod_cast hT0.ne'
  have hTQ : ((totalCount text : Nat) : ℚ) ≠ 0 := by
    exact_mod_cast hT0.ne'
  have hcsne : fullCounts text ≠ [] := by simp [fullCounts]
  have hprev0 : val (reduce 0 1) = ((0 : Nat) : ℚ) / ((totalCount text : Nat) : ℚ) := by
    rw [reduce_val (by norm_num)]
    norm_num
  have hval0 : val (reduce 0 1) = 0 := by
    rw [reduce_val (by norm_num)]
    norm_num
  refine ⟨(trainLoop (totalCount text) (fullCounts text) 0 (reduce 0 1)).1,
    ?_, ?_, ?_, ?_, ?_, ?_, ?_, ?_⟩
  · unfold arith_coder_train
    rw [if_neg hnul]
    show (if (trainLoop (totalCount text) (fullCounts text) 0 (reduce 0 1)).2 = totalCount text
      then some (trainLoop (totalCount text) (fullCounts text) 0 (reduce 0 1)).1 else none) = _
    rw [trainLoop_tot]
    simp [totalCount]
  · exact trainLoop_map_fst _ _ _ _
  · cases hc : fullCounts text with
    | nil => exact absurd hc hcsne
    | cons c0 cs' =>
      obtain ⟨ch, cnt⟩ := c0
      simp only [trainLoop, List.head?_cons, Option.map_some]
      simp [hval0]
  · have hlast := trainLoop_getLast (totalCount text) (fullCounts text) 0 (reduce 0 1) hcsne
    have hcomp : ((trainLoop (totalCount text) (fullCounts text) 0 (reduce 0 1)).1.getLast?.map
        (fun e => e.2.2)).map val = (trainLoop (totalCount text) (fullCounts text) 0
          (reduce 0 1)).1.getLast?.map (fun e => val e.2.2) := by
      rw [Option.map_map]
      rfl
    rw [← hcomp, hlast]
    have hv : val (reduce (((0 : Nat) : Int) + (((fullCounts text).map Prod.snd).sum : Int))
        ((totalCount text : Nat) : Int)) = 1 := by
      rw [reduce_val hTZ]
      have hsum : (((fullCounts text).map Prod.snd).sum : Int) = ((totalCount text : Nat) : Int) := by
        unfold totalCount
        norm_num
      rw [hsum]
      push_cast
      rw [zero_add, div_self hTQ]
    rw [Option.map_some', hv]
  · have hsum := trainLoop_sum (totalCount text) hTZ (fullCounts text) 0 (reduce 0 1) hprev0
    rw [hsum]
    have : ((((fullCounts text).map Prod.snd).sum : Nat) : ℚ) = ((totalCount text : Nat) : ℚ) := by
      unfold totalCount
      norm_num
    rw [this, div_self hTQ]
  · exact trainLoop_width (totalCount text) hTZ (fullCounts text) 0 (reduce 0 1) hprev0
  · exact (countsOf_spec text).2.2
  · unfold fullCounts
    exact List.getLast?_concat _

/-- Witness for C1 at `text = "aab"`. -/
theorem train_partition_witness :
    ∃ probs, arith_coder_train ['a', 'a', 'b'] = some probs ∧
      probs.map Prod.fst = (fullCounts ['a', 'a', 'b']).map Prod.fst ∧
      probs.head?.map (fun e => val e.2.1) = some 0 ∧
      probs.getLast?.map (fun e => val e.2.2) = some 1 ∧
      (probs.map (fun e => val e.2.2 - val e.2.1)).sum = 1 ∧
      (∀ i (h : i < probs.length) (h' : i < (fullCounts ['a', 'a', 'b']).length),
        val (probs.get ⟨i, h⟩).2.2 - val (probs.get ⟨i, h⟩).2.1
          = (((fullCounts ['a', 'a', 'b']).get ⟨i, h'⟩).2 : ℚ) /
              (totalCount ['a', 'a', 'b'] : ℚ)) ∧
      (∀ p ∈ countsOf ['a', 'a', 'b'], p.2 = List.count p.1 ['a', 'a', 'b']) ∧
      (fullCounts ['a', 'a', 'b']).getLast? = some (nul, 1) :=
  train_partition ['a', 'a', 'b'] (by decide) (by decide)

theorem train_eq_some (text : List Char) (hnul : nul ∉ text) :
    arith_coder_train text = some
      (trainLoop (totalCount text) (fullCounts text) 0 (reduce 0 1)).1 := by
  unfold arith_coder_train
  rw [if_neg hnul]
  show (if (trainLoop (totalCount text) (fullCounts text) 0 (reduce 0 1)).2 = totalCount text
    then some (trainLoop (totalCount text) (fullCounts text) 0 (reduce 0 1)).1 else none) = _
  rw [trainLoop_tot]
  simp [totalCount]

/-- `probs[c]`: Python dictionary lookup; a missing key raises `KeyError`,
modelled by `none`. -/
def lookupProb (probs : List (Char × (Rational × Rational))) (c : Char) :
    Option (Rational × Rational) :=
  (probs.find? fun p => p.1 = c).map Prod.snd

/-- The interval-narrowing loop of `arith_coder_encode`: for each symbol,
`delta = maxval - minval; maxval = minval + prob_range[1]*delta;
minval = minval + prob_range[0]*delta` (both updates read the old
`minval` and the old `delta`). -/
def narrowList (probs : List (Char × (Rational × Rational))) :
    List Char → Rational × Rational → Option (Rational × Rational)
  | [], mv => some mv
  | c :: rest, (minval, maxval) =>
    match lookupProb probs c with
    | none => none
    | some (lo, hi) =>
      let delta := maxval.sub minval
      narrowList probs rest (minval.add (lo.mul delta), minval.add (hi.mul delta))

/-- `arith_coder_encode(text, probs)` as executed by Python 3: the
narrowing loop itself runs (`__sub__`, `__mul__`, `__add__` are genuine
Python 3 protocol methods and all their operands here are `_Rational`s),
raising `KeyError` on a symbol absent from `probs`; but the statement
immediately after the loop, `delta = (maxval - minval) / 2`, applies `/`
to a `_Rational` and the plain int `2`.  `_Rational` defines only the
Python 2 `__div__`, which Python 3 never dispatches — and with
`__coerce__` commented out even that body would fail at `(2).inv()` —
so every call raises `TypeError` there and no bit count is ever
returned.  The doubling loop below that line (whose `delta < 1` and
`delta << 1` would fail against the plain int `1` as well) is
unreachable. -/
def arith_coder_encode (text : List Char)
    (probs : List (Char × (Rational × Rational))) : Option Nat :=
  match narrowList probs (text ++ [nul]) (reduce 0 1, reduce 1 1) with
  | none => none
  | some _ => none

/-- Every call of the encoder fails: `KeyError` inside the narrowing
loop, or `TypeError` at the halving step immediately after it. -/
theorem arith_coder_encode_eq_none (text : List Char)
    (probs : List (Char × (Rational × Rational))) :
    arith_coder_encode text probs = none := by
  unfold arith_coder_encode
  cases narrowList probs (text ++ [nul]) (reduce 0 1, reduce 1 1) with
  | none => rfl
  | some mv => rfl

/-- C2 counterexample: `encode("", probs)` for the table trained on the
single-symbol corpus `"a"` does not return `0`: the call produces no
value at all, raising `TypeError` at `delta = (maxval - minval) / 2`. -/
theorem encode_empty_single_counterexample :
    arith_coder_encode [] ((arith_coder_train ['a']).getD []) ≠ some 0 ∧
    arith_coder_encode [] ((arith_coder_train ['a']).getD []) = none := by
  have h : arith_coder_encode [] ((arith_coder_train ['a']).getD []) = none :=
    arith_coder_encode_eq_none _ _
  refine ⟨?_, h⟩
  rw [h]
  simp

/-- C2 (amended): for a table trained on any single-symbol corpus
(`k ≥ 1` occurrences of one non-terminator symbol), `encode("", probs)`
does not return `0` — or anything: after the mandatory terminator
narrowing it raises `TypeError` at the halving step
`delta = (maxval - minval) / 2`, since Python 3 does not dispatch `/` to
the Python 2 `__div__` and the plain int `2` is never coerced. -/
theorem encode_empty_single_symbol (k : Nat) (c : Char) (hk : 1 ≤ k) (hc : c ≠ nul) :
    ∃ probs, arith_coder_train (List.replicate k c) = some probs ∧
      arith_coder_encode [] probs = none := by
  have hnul : nul ∉ List.replicate k c := by
    intro h
    exact hc ((List.eq_of_mem_replicate h).symm ▸ rfl)
  exact ⟨_, train_eq_some _ hnul, arith_coder_encode_eq_none _ _⟩

/-- Witness for C2 (amended) at `k = 1`, `c = 'a'`. -/
theorem encode_empty_single_symbol_witness :
    ∃ probs, arith_coder_train (List.replicate 1 'a') = some probs ∧
      arith_coder_encode [] probs = none :=
  encode_empty_single_symbol 1 'a' (by decide) (by decide)

/-- C8 (code bug): no call of the encoder returns a bit count — here at
the table trained on `"a"`, on the text `"a"` and on its extension
`"aa"` — so there are never two bit counts for the claimed monotonicity
to compare: every call raises `TypeError` at
`delta = (maxval - minval) / 2`, against the function's own docstring
`"text and the 0-order probability statistics -> longval, nbits"`. -/
theorem encode_extension_no_bit_counts :
    arith_coder_encode ['a'] ((arith_coder_train ['a']).getD []) = none ∧
    arith_coder_encode (['a'] ++ ['a']) ((arith_coder_train ['a']).getD []) = none :=
  ⟨arith_coder_encode_eq_none _ _, arith_coder_encode_eq_none _ _⟩

end Mymath
